import Mathlib

/-!
Memory-hierarchy latency experiment: the pointer-chasing kernel.

A shallow embedding of `src/memlatencytest.cpp`.

* A `Node` holds one pointer `next`.  A pointer is either `NULL` or the
  address `nodes + i` of the `i`-th node of the block, so it is modelled by
  `Ptr.null` / `Ptr.node i`, and the block `Node* nodes` by a `List Ptr`
  holding the `next` field of every node.
* Reads and writes through a pointer are fallible: reading through `NULL`
  or outside the block is a fault, rendered as `none`.
* `idx`, `jumpLength`, `nextIdx`, `numJumps` are `int` and `numNodes` is
  `size_t` in the source.  They are natural numbers here; lemma
  `buildLoop_spec` shows that the running index never exceeds
  `numNodes + jumpLength`, so for the configured tables (at most `8388608`
  nodes, jump length at most `4096`) no machine operation wraps.
* The `while` loop is rendered with fuel, one unit per iteration; running out
  of fuel is `none`.
-/

namespace MemLatency

/-! ## Configuration (lines 6-65) -/

/-- The constant `ITERATIONS` (line 8). -/
def ITERATIONS : Nat := 50000000

/-- The value of `sizeof(Node)`: one pointer of eight bytes. -/
def sizeofNode : Nat := 8

/-- The table `workingSetSizes` (lines 21-44). -/
def workingSetSizes : List Nat :=
  [49152, 65536, 98304, 131072, 196608, 262144, 393216, 524288, 786432,
   1048576, 1572864, 2097152, 3145728, 4194304, 6291456, 8388608, 12582912,
   16777216, 25165824, 33554432, 50331648, 67108864]

/-- The table `strideSizes` (lines 47-64). -/
def strideSizes : List Nat :=
  [1, 2, 4, 8, 16, 32, 64, 128, 256, 512, 1024, 2048, 4096, 8192, 16384, 32768]

/-! ## Data model (lines 10-12) -/

/-- A value of type `Node*` pointing into the current block: `NULL`, or
`nodes + i`. -/
inductive Ptr where
  | null : Ptr
  | node (i : Nat) : Ptr
  deriving DecidableEq, Repr

/-- Read `p->next`; `none` is a fault (`p` is `NULL` or outside the block). -/
def deref (nodes : List Ptr) : Ptr → Option Ptr
  | Ptr.null => none
  | Ptr.node i => nodes[i]?

/-- Write `(nodes+idx)->next = v`; `none` is a write outside the block. -/
def store (nodes : List Ptr) (idx : Nat) (v : Ptr) : Option (List Ptr) :=
  if idx < nodes.length then some (nodes.set idx v) else none

/-- The block after `new Node[numNodes]` and the fill loop of lines 79-81:
every `next` is `NULL`. -/
def initNodes (numNodes : Nat) : List Ptr := List.replicate numNodes Ptr.null

/-- Line 75: `numNodes = wSetSize / sizeof(Node)`. -/
def numNodesOf (wSetSize : Nat) : Nat := wSetSize / sizeofNode

/-- Lines 86-87: `jumpLength = stride / sizeof(Node)`, raised to 1 when 0. -/
def jumpLengthOf (stride : Nat) : Nat :=
  if stride / sizeofNode = 0 then 1 else stride / sizeofNode

/-! ## Cycle construction (lines 92-100) -/

/-- The `while (idx < numNodes)` loop of lines 93-97.  The first argument after
the two sizes is the fuel (number of iterations allowed); the result is the
final `idx` and the block, `none` when the fuel is used up before the loop
condition fails or when a write leaves the block. -/
def buildLoop (numNodes jumpLength : Nat) :
    Nat → Nat → List Ptr → Option (Nat × List Ptr)
  | 0, idx, nodes => if idx < numNodes then none else some (idx, nodes)
  | fuel + 1, idx, nodes =>
    if idx < numNodes then
      match store nodes idx (Ptr.node ((idx + jumpLength) % numNodes)) with
      | none => none
      | some nodes1 => buildLoop numNodes jumpLength fuel (idx + jumpLength) nodes1
    else some (idx, nodes)

/-- Lines 92-100: `idx = 0`, the loop, then `idx -= jumpLength` and
`(nodes+idx)->next = nodes`.  The loop is given `numNodes` iterations.  A
negative `idx` after the subtraction is a write outside the block. -/
def construct (numNodes jumpLength : Nat) (nodes : List Ptr) : Option (List Ptr) :=
  match buildLoop numNodes jumpLength numNodes 0 nodes with
  | none => none
  | some (idx, nodes1) =>
    if idx < jumpLength then none else store nodes1 (idx - jumpLength) (Ptr.node 0)

/-! ## Traversal (lines 103-113) -/

/-- The loop `for (k = 0; k < n; k++) p = p->next;` started with `p`. -/
def follow (nodes : List Ptr) : Nat → Ptr → Option Ptr
  | 0, p => some p
  | k + 1, p =>
    match deref nodes p with
    | none => none
    | some q => follow nodes k q

/-- The pointer values of one measurement: `p` after the warmup loop, `p` when
the timed loop starts, and `p` after the timed loop. -/
structure Measurement where
  warmupEnd : Ptr
  timedStart : Ptr
  timedEnd : Ptr
  deriving DecidableEq, Repr

/-- The body of the stride loop (lines 84-113) on the block as left by the
previous strides: the new block and the pointer values of the measurement. -/
def measureStride (numNodes : Nat) (nodes : List Ptr) (stride : Nat) :
    Option (List Ptr × Measurement) :=
  let jumpLength := jumpLengthOf stride
  let numJumps := numNodes / jumpLength
  match construct numNodes jumpLength nodes with
  | none => none
  | some nodes1 =>
    match follow nodes1 numJumps (Ptr.node 0) with
    | none => none
    | some pw =>
      let start := Ptr.node 0
      match follow nodes1 ITERATIONS start with
      | none => none
      | some pt => some (nodes1, ⟨pw, start, pt⟩)

/-- The stride loop of lines 83-127 over the given strides, threading the
block from one stride to the next. -/
def strideLoop (numNodes : Nat) : List Nat → List Ptr → Option (List Ptr × List Measurement)
  | [], nodes => some (nodes, [])
  | stride :: rest, nodes =>
    match measureStride numNodes nodes stride with
    | none => none
    | some (nodes1, m) =>
      match strideLoop numNodes rest nodes1 with
      | none => none
      | some (nodes2, ms) => some (nodes2, m :: ms)

/-- The body of the working-set loop (lines 70-129): allocate and fill the
block once, then run every stride on it. -/
def measureWorkingSet (strides : List Nat) (wSetSize : Nat) : Option (List Measurement) :=
  match strideLoop (numNodesOf wSetSize) strides (initNodes (numNodesOf wSetSize)) with
  | none => none
  | some (_, ms) => some ms

/-- The working-set loop of lines 69-130. -/
def sweepLoop (strides : List Nat) : List Nat → Option (List (List Measurement))
  | [] => some []
  | w :: rest =>
    match measureWorkingSet strides w with
    | none => none
    | some row =>
      match sweepLoop strides rest with
      | none => none
      | some rows => some (row :: rows)

/-- The whole sweep of `main` over the two configured tables. -/
def sweep : Option (List (List Measurement)) := sweepLoop strideSizes workingSetSizes

/-! ## Program entry and result sink (lines 14-19, 122-149)

The latencies are clock readings; they enter the model as a table
`latency i j` of values of an arbitrary type `Lat`.  The output destination is
a parameter too: `std::ofstream` does not throw, a stream that failed to open
or to write ignores what is sent to it, and `main` never tests the stream. -/

/-- Behaviour of the output destination: it opens and takes the writes, it
cannot be opened, or it opens and the writes fail. -/
inductive Dest where
  | writable : Dest
  | unopenable : Dest
  | unwritable : Dest
  deriving DecidableEq, Repr

/-- A line sent to `std::cerr` or `std::cout`. -/
inductive Line (Lat : Type) where
  | usage (argv0 : String) : Line Lat
  | cell (wSetSize stride : Nat) (latency : Lat) : Line Lat
  | written (path : String) : Line Lat
  deriving DecidableEq, Repr

/-- The text sent to the CSV stream (lines 134-146): the header of stride
sizes and one row per working-set size. -/
structure Csv (Lat : Type) where
  header : List Nat
  rows : List (Nat × List Lat)
  deriving DecidableEq, Repr

/-- What a run leaves behind: exit status, the two console streams, and the
text that reached the output file (`none` when the stream had failed). -/
structure Outcome (Lat : Type) where
  exitCode : Nat
  stderr : List (Line Lat)
  stdout : List (Line Lat)
  file : Option (Csv Lat)
  deriving DecidableEq, Repr

/-- The console lines of lines 122-126, one per cell in sweep order. -/
def cellLines {Lat : Type} (latency : Nat → Nat → Lat) : List (Line Lat) :=
  workingSetSizes.enum.flatMap (fun iw =>
    strideSizes.enum.map (fun js => Line.cell iw.2 js.2 (latency iw.1 js.1)))

/-- The text of lines 134-146. -/
def csvText {Lat : Type} (latency : Nat → Nat → Lat) : Csv Lat :=
  ⟨strideSizes,
   workingSetSizes.enum.map (fun iw => (iw.2, strideSizes.enum.map (fun js => latency iw.1 js.1)))⟩

/-- Lines 132-148: open the stream, send the text, close.  No step tests the
stream, so the result is only what reached the file. -/
def writeCsv {Lat : Type} (dest : Dest) (text : Csv Lat) : Option (Csv Lat) :=
  match dest with
  | Dest.writable => some text
  | Dest.unopenable => none
  | Dest.unwritable => none

/-- Lines 122-149 once the sweep is over: the console lines, the CSV stream,
the completion line and the exit status 0.  A fault in the sweep (`none`) has
ended the run before. -/
def resultSink {Lat : Type} (path : String) (dest : Dest) (latency : Nat → Nat → Lat)
    (swept : Option (List (List Measurement))) : Option (Outcome Lat) :=
  match swept with
  | none => none
  | some _ =>
    some ⟨0, [], cellLines latency ++ [Line.written path], writeCsv dest (csvText latency)⟩

/-- The function `main` on the argument vector `argv` (so `argc` is its
length).  Memory for the blocks is taken to be available. -/
def main {Lat : Type} (argv : List String) (dest : Dest) (latency : Nat → Nat → Lat) :
    Option (Outcome Lat) :=
  match argv with
  | [_, path] => resultSink path dest latency sweep
  | _ => some ⟨1, [Line.usage (argv.headD "")], [], none⟩

/-! ## Closed forms used in the statements -/

/-- Number of multiples of `jumpLength` below `numNodes`: the length of the
cycle through index 0. -/
def cycleLen (numNodes jumpLength : Nat) : Nat := (numNodes + jumpLength - 1) / jumpLength

/-- Index of the node on which `k` steps from index 0 end. -/
def posAfter (numNodes jumpLength k : Nat) : Nat :=
  (k % cycleLen numNodes jumpLength) * jumpLength

/-- Pointer values of the measurement of one cell, in closed form. -/
def cellTrace (numNodes stride : Nat) : Measurement :=
  ⟨Ptr.node (posAfter numNodes (jumpLengthOf stride) (numNodes / jumpLengthOf stride)),
   Ptr.node 0,
   Ptr.node (posAfter numNodes (jumpLengthOf stride) ITERATIONS)⟩

/-- The `next` field of node `i` after the stride loop has run over the given
strides, from its value `prev` before the first of them, in closed form. -/
def linkAfter (numNodes : Nat) : List Nat → Nat → Option Ptr → Option Ptr
  | [], _, prev => prev
  | stride :: rest, i, prev =>
    linkAfter numNodes rest i
      (if i < numNodes ∧ jumpLengthOf stride ∣ i then
        some (Ptr.node (if i + jumpLengthOf stride < numNodes then i + jumpLengthOf stride else 0))
      else prev)

/-! ## Small runs of the model -/

theorem construct_three_two :
    construct 3 2 (initNodes 3) = some [Ptr.node 2, Ptr.null, Ptr.node 0] := by decide

theorem construct_four_one :
    construct 4 1 (initNodes 4) = some [Ptr.node 1, Ptr.node 2, Ptr.node 3, Ptr.node 0] := by
  decide

theorem construct_three_five :
    construct 3 5 (initNodes 3) = some [Ptr.node 0, Ptr.null, Ptr.null] := by decide

theorem follow_three_two :
    follow [Ptr.node 2, Ptr.null, Ptr.node 0] 1 (Ptr.node 0) = some (Ptr.node 2) := by decide

theorem follow_null_faults :
    follow [Ptr.null, Ptr.null] 2 (Ptr.node 0) = none := by decide

/-! ## The construction loop -/

theorem store_eq_some (nodes : List Ptr) (idx : Nat) (v : Ptr) (h : idx < nodes.length) :
    store nodes idx v = some (nodes.set idx v) := by
  simp [store, h]

theorem dvd_shift {J idx i : Nat} (hJ : 1 ≤ J) (hne : i ≠ idx) :
    (idx + J ≤ i ∧ J ∣ (i - (idx + J))) ↔ (idx ≤ i ∧ J ∣ (i - idx)) := by
  constructor
  · rintro ⟨h1, h2⟩
    refine ⟨by omega, ?_⟩
    have : i - idx = (i - (idx + J)) + J := by omega
    rw [this]
    exact Nat.dvd_add h2 (dvd_refl J)
  · rintro ⟨h1, h2⟩
    have hpos : 0 < i - idx := by omega
    have hle : J ≤ i - idx := Nat.le_of_dvd hpos h2
    refine ⟨by omega, ?_⟩
    have : i - (idx + J) = (i - idx) - J := by omega
    rw [this]
    exact Nat.dvd_sub' h2 (dvd_refl J)

/-- Invariant of the construction loop: with enough fuel it returns, the final
index is the first value `idx + c * J` that is not below `N`, and exactly the
entries at `idx, idx + J, ...` below `N` have been assigned. -/
theorem buildLoop_spec (N J : Nat) (hJ : 1 ≤ J) :
    ∀ (fuel idx : Nat) (nodes : List Ptr), nodes.length = N → N ≤ idx + fuel * J →
      ∃ idx1 nodes1, buildLoop N J fuel idx nodes = some (idx1, nodes1) ∧
        nodes1.length = N ∧ idx ≤ idx1 ∧ N ≤ idx1 ∧ (idx < N → idx1 < N + J) ∧
        J ∣ (idx1 - idx) ∧ (N ≤ idx → idx1 = idx) ∧
        ∀ i, nodes1[i]? =
          if idx ≤ i ∧ i < N ∧ J ∣ (i - idx) then some (Ptr.node ((i + J) % N)) else nodes[i]? := by
  intro fuel
  induction fuel with
  | zero =>
    intro idx nodes hlen hfuel
    have hN : ¬ idx < N := by omega
    refine ⟨idx, nodes, by simp [buildLoop, hN], hlen, le_refl _, by omega, by omega,
      by simp, fun _ => rfl, ?_⟩
    intro i
    have : ¬ (idx ≤ i ∧ i < N ∧ J ∣ (i - idx)) := by omega
    rw [if_neg this]
  | succ fuel ih =>
    intro idx nodes hlen hfuel
    by_cases hlt : idx < N
    · have hst := store_eq_some nodes idx (Ptr.node ((idx + J) % N)) (hlen ▸ hlt)
      have hfuel1 : N ≤ (idx + J) + fuel * J := by
        have : (fuel + 1) * J = fuel * J + J := Nat.succ_mul fuel J
        omega
      obtain ⟨idx1, nodes1, h1, h2, h3, h4, h5, h6, h7, h8⟩ :=
        ih (idx + J) (nodes.set idx (Ptr.node ((idx + J) % N))) (by simp [hlen]) hfuel1
      refine ⟨idx1, nodes1, by simp [buildLoop, hlt, hst, h1], h2, by omega, h4, ?_, ?_,
        by omega, ?_⟩
      · intro _
        by_cases hc : idx + J < N
        · have := h5 hc
          omega
        · have := h7 (by omega)
          omega
      · have : idx1 - idx = (idx1 - (idx + J)) + J := by omega
        rw [this]
        exact Nat.dvd_add h6 (dvd_refl J)
      · intro i
        rw [h8 i]
        by_cases hi : i = idx
        · subst hi
          have hc1 : ¬ (i + J ≤ i ∧ i < N ∧ J ∣ (i - (i + J))) := by omega
          have hc2 : i ≤ i ∧ i < N ∧ J ∣ (i - i) := ⟨le_refl _, hlt, by simp⟩
          rw [if_neg hc1, if_pos hc2]
          simp [hlen, hlt]
        · have hset : (nodes.set idx (Ptr.node ((idx + J) % N)))[i]? = nodes[i]? := by
            rw [List.getElem?_set_ne (Ne.symm hi)]
          rw [hset]
          have hiff := dvd_shift (J := J) hJ hi
          by_cases hc : idx ≤ i ∧ i < N ∧ J ∣ (i - idx)
          · have hc1 : idx + J ≤ i ∧ i < N ∧ J ∣ (i - (idx + J)) := by
              have := hiff.mpr ⟨hc.1, hc.2.2⟩
              exact ⟨this.1, hc.2.1, this.2⟩
            rw [if_pos hc, if_pos hc1]
          · have hc1 : ¬ (idx + J ≤ i ∧ i < N ∧ J ∣ (i - (idx + J))) := by
              intro h
              have := hiff.mp ⟨h.1, h.2.2⟩
              exact hc ⟨this.1, h.2.1, this.2⟩
            rw [if_neg hc, if_neg hc1]
    · refine ⟨idx, nodes, by simp [buildLoop, hlt], hlen, le_refl _, by omega, by omega,
        by simp, fun _ => rfl, ?_⟩
      intro i
      have : ¬ (idx ≤ i ∧ i < N ∧ J ∣ (i - idx)) := by omega
      rw [if_neg this]

theorem lt_cycleLen_iff {N J : Nat} (hJ : 1 ≤ J) (c : Nat) :
    c < cycleLen N J ↔ c * J < N := by
  unfold cycleLen
  rw [Nat.lt_iff_add_one_le, Nat.le_div_iff_mul_le (by omega)]
  have : (c + 1) * J = c * J + J := Nat.succ_mul c J
  omega

theorem cycleLen_pos {N J : Nat} (hN : 1 ≤ N) (hJ : 1 ≤ J) : 0 < cycleLen N J := by
  rw [lt_cycleLen_iff hJ]
  omega

/-- Two multiples of `J` in the window `[N - J, N)` coincide. -/
theorem last_multiple_unique {N J i l : Nat} (hi : J ∣ i) (hl : J ∣ l)
    (hiN : i < N) (hlN : l < N) (hi2 : N ≤ i + J) (hl2 : N ≤ l + J) : i = l := by
  obtain ⟨a, rfl⟩ := hi
  obtain ⟨b, rfl⟩ := hl
  have h1 : J * a < J * (b + 1) := by rw [Nat.mul_succ]; omega
  have h2 : J * b < J * (a + 1) := by rw [Nat.mul_succ]; omega
  have h3 : a < b + 1 := Nat.lt_of_mul_lt_mul_left h1
  have h4 : b < a + 1 := Nat.lt_of_mul_lt_mul_left h2
  have : a = b := by omega
  rw [this]

/-- What `construct` leaves in the block: it returns, keeps the length, gives
every multiple of `J` below `N` its successor (the next multiple, or index 0
from the last one) and keeps every other entry as it was. -/
theorem construct_spec {N J : Nat} (hN : 1 ≤ N) (hJ : 1 ≤ J) (nodes : List Ptr)
    (hlen : nodes.length = N) :
    ∃ nodes1, construct N J nodes = some nodes1 ∧ nodes1.length = N ∧
      ∀ i, nodes1[i]? =
        if i < N ∧ J ∣ i then some (Ptr.node (if i + J < N then i + J else 0)) else nodes[i]? := by
  have hfuel : N ≤ 0 + N * J := by
    have : N * 1 ≤ N * J := Nat.mul_le_mul_left N hJ
    omega
  obtain ⟨idx1, nodes1, h1, h2, _, h4, h5, h6, _, h8⟩ := buildLoop_spec N J hJ N 0 nodes hlen hfuel
  simp only [Nat.sub_zero, Nat.zero_le, true_and] at h6 h8
  have hJle : J ≤ idx1 := Nat.le_of_dvd (by omega) h6
  have hlt : idx1 < N + J := h5 (by omega)
  have hlast : J ∣ (idx1 - J) := Nat.dvd_sub' h6 (dvd_refl J)
  have hst := store_eq_some nodes1 (idx1 - J) (Ptr.node 0) (by omega)
  refine ⟨nodes1.set (idx1 - J) (Ptr.node 0), ?_, by simp [h2], ?_⟩
  · simp [construct, h1, hst, Nat.not_lt.mpr hJle]
  · intro i
    by_cases hi : i = idx1 - J
    · subst hi
      have hc : idx1 - J < N ∧ J ∣ (idx1 - J) := ⟨by omega, hlast⟩
      have hn : ¬ (idx1 - J + J < N) := by omega
      rw [if_pos hc, if_neg hn]
      rw [List.getElem?_set_self (by omega)]
    · rw [List.getElem?_set_ne (Ne.symm hi), h8 i]
      by_cases hc : i < N ∧ J ∣ i
      · rw [if_pos hc, if_pos hc]
        have hlt2 : i + J < N := by
          by_contra hge
          exact hi (last_multiple_unique hc.2 hlast hc.1 (by omega) (by omega) (by omega))
        rw [if_pos hlt2, Nat.mod_eq_of_lt hlt2]
      · rw [if_neg hc, if_neg hc]

/-- Successor of the `c`-th cycle node in a block described by `construct_spec`. -/
theorem deref_cycle {N J : Nat} (hJ : 1 ≤ J) {nodes0 nodes1 : List Ptr}
    (hget : ∀ i, nodes1[i]? =
      if i < N ∧ J ∣ i then some (Ptr.node (if i + J < N then i + J else 0)) else nodes0[i]?)
    {c : Nat} (hc : c < cycleLen N J) :
    deref nodes1 (Ptr.node (c * J)) = some (Ptr.node (((c + 1) % cycleLen N J) * J)) := by
  have hcN : c * J < N := (lt_cycleLen_iff hJ c).mp hc
  have hcond : c * J < N ∧ J ∣ c * J := ⟨hcN, Dvd.intro_left c rfl⟩
  simp only [deref]
  rw [hget, if_pos hcond]
  have hsucc : (c + 1) * J = c * J + J := Nat.succ_mul c J
  by_cases hnext : c + 1 < cycleLen N J
  · have h1 : (c + 1) * J < N := (lt_cycleLen_iff hJ (c + 1)).mp hnext
    rw [Nat.mod_eq_of_lt hnext, if_pos (by omega), hsucc]
  · have h1 : ¬ (c + 1) * J < N := fun h => hnext ((lt_cycleLen_iff hJ (c + 1)).mpr h)
    have h2 : c + 1 = cycleLen N J := by omega
    rw [h2, Nat.mod_self, if_neg (by omega), Nat.zero_mul]

/-- Following `k` links from the `c`-th cycle node ends on the cycle node
number `(c + k) mod cycleLen`. -/
theorem follow_cycle {N J : Nat} (hJ : 1 ≤ J) {nodes0 nodes1 : List Ptr}
    (hget : ∀ i, nodes1[i]? =
      if i < N ∧ J ∣ i then some (Ptr.node (if i + J < N then i + J else 0)) else nodes0[i]?) :
    ∀ (k c : Nat), c < cycleLen N J →
      follow nodes1 k (Ptr.node (c * J)) = some (Ptr.node (((c + k) % cycleLen N J) * J)) := by
  intro k
  induction k with
  | zero =>
    intro c hc
    simp [follow, Nat.mod_eq_of_lt hc]
  | succ k ih =>
    intro c hc
    have hpos : 0 < cycleLen N J := by omega
    simp only [follow]
    rw [deref_cycle hJ hget hc]
    simp only []
    rw [ih _ (Nat.mod_lt _ hpos), Nat.mod_add_mod]
    have : c + 1 + k = c + (k + 1) := by omega
    rw [this]

/-- Closed form of the traversal from index 0 after `construct`, from any
earlier contents of the block. -/
theorem follow_construct {N J : Nat} (hN : 1 ≤ N) (hJ : 1 ≤ J) {nodes nodes1 : List Ptr}
    (hlen : nodes.length = N) (hc : construct N J nodes = some nodes1) (k : Nat) :
    follow nodes1 k (Ptr.node 0) = some (Ptr.node (posAfter N J k)) := by
  obtain ⟨nodes2, h1, _, h3⟩ := construct_spec hN hJ nodes hlen
  rw [hc] at h1
  cases h1
  have := follow_cycle hJ h3 k 0 (cycleLen_pos hN hJ)
  simpa [posAfter] using this

/-! ## The stride loop and the sweep -/

theorem jumpLengthOf_pos (stride : Nat) : 1 ≤ jumpLengthOf stride := by
  unfold jumpLengthOf
  split
  · exact le_refl 1
  · exact Nat.one_le_iff_ne_zero.mpr (by assumption)

/-- One cell of the sweep: the measurement returns, its pointer values are the
closed form `cellTrace` whatever the block held before, and the block is the
one `construct` leaves. -/
theorem measureStride_spec {N : Nat} (hN : 1 ≤ N) (nodes : List Ptr) (hlen : nodes.length = N)
    (stride : Nat) :
    ∃ nodes1, construct N (jumpLengthOf stride) nodes = some nodes1 ∧
      measureStride N nodes stride = some (nodes1, cellTrace N stride) := by
  obtain ⟨nodes1, h1, _, _⟩ := construct_spec hN (jumpLengthOf_pos stride) nodes hlen
  refine ⟨nodes1, h1, ?_⟩
  have hf := follow_construct hN (jumpLengthOf_pos stride) hlen h1
  simp only [measureStride, h1, hf, cellTrace]

/-- The stride loop returns; its measurements are the closed forms and every
entry of the final block is given by `linkAfter`. -/
theorem strideLoop_spec {N : Nat} (hN : 1 ≤ N) :
    ∀ (strides : List Nat) (nodes : List Ptr), nodes.length = N →
      ∃ nodes2, strideLoop N strides nodes = some (nodes2, strides.map (cellTrace N)) ∧
        nodes2.length = N ∧ ∀ i, nodes2[i]? = linkAfter N strides i nodes[i]? := by
  intro strides
  induction strides with
  | nil =>
    intro nodes hlen
    exact ⟨nodes, rfl, hlen, fun _ => rfl⟩
  | cons stride rest ih =>
    intro nodes hlen
    obtain ⟨nodes1, h1, h2⟩ := measureStride_spec hN nodes hlen stride
    obtain ⟨nodes1b, h1b, hlen1, hget1⟩ := construct_spec hN (jumpLengthOf_pos stride) nodes hlen
    rw [h1] at h1b
    cases h1b
    obtain ⟨nodes2, h3, hlen2, hget2⟩ := ih nodes1 hlen1
    refine ⟨nodes2, ?_, hlen2, ?_⟩
    · simp only [strideLoop, h2, h3, List.map_cons]
    · intro i
      rw [hget2 i, hget1 i]
      rfl

/-- Running the stride loop over `xs ++ [stride]` is running it over `xs` and
then measuring `stride` on the block that run leaves. -/
theorem strideLoop_concat (N : Nat) (stride : Nat) :
    ∀ (xs : List Nat) (nodes : List Ptr),
      strideLoop N (xs ++ [stride]) nodes =
        match strideLoop N xs nodes with
        | none => none
        | some (blk, ms) =>
          match measureStride N blk stride with
          | none => none
          | some (blk1, m) => some (blk1, ms ++ [m]) := by
  intro xs
  induction xs with
  | nil =>
    intro nodes
    show strideLoop N [stride] nodes = _
    simp only [strideLoop]
    cases measureStride N nodes stride with
    | none => rfl
    | some r => rfl
  | cons x rest ih =>
    intro nodes
    show strideLoop N (x :: (rest ++ [stride])) nodes = _
    simp only [strideLoop]
    cases measureStride N nodes x with
    | none => rfl
    | some r =>
      obtain ⟨blk0, m0⟩ := r
      simp only []
      rw [ih blk0]
      cases strideLoop N rest blk0 with
      | none => rfl
      | some r2 =>
        obtain ⟨blk, ms⟩ := r2
        simp only []
        cases measureStride N blk stride with
        | none => rfl
        | some r3 => rfl

theorem initNodes_length (N : Nat) : (initNodes N).length = N := by
  simp [initNodes]

theorem measureWorkingSet_spec (strides : List Nat) {w : Nat} (hw : 1 ≤ numNodesOf w) :
    measureWorkingSet strides w = some (strides.map (cellTrace (numNodesOf w))) := by
  obtain ⟨nodes2, h, _, _⟩ := strideLoop_spec hw strides _ (initNodes_length (numNodesOf w))
  simp only [measureWorkingSet, h]

theorem sweepLoop_spec (strides : List Nat) :
    ∀ (ws : List Nat), (∀ w ∈ ws, 1 ≤ numNodesOf w) →
      sweepLoop strides ws = some (ws.map (fun w => strides.map (cellTrace (numNodesOf w)))) := by
  intro ws
  induction ws with
  | nil => intro _; rfl
  | cons w rest ih =>
    intro h
    have h1 := measureWorkingSet_spec strides (h w (List.mem_cons_self _ _))
    have h2 := ih (fun x hx => h x (List.mem_cons_of_mem _ hx))
    simp only [sweepLoop, h1, h2, List.map_cons]

theorem workingSetSizes_numNodes_pos : ∀ w ∈ workingSetSizes, 1 ≤ numNodesOf w := by
  decide

/-- The configured sweep returns, and its measurements are the closed forms. -/
theorem sweep_spec :
    sweep = some (workingSetSizes.map (fun w => strideSizes.map (cellTrace (numNodesOf w)))) :=
  sweepLoop_spec strideSizes workingSetSizes workingSetSizes_numNodes_pos

/-! ## Further facts on the loop and the cycle -/

/-- Once the loop condition fails the loop returns at once, whatever the fuel. -/
theorem buildLoop_done {N J idx : Nat} (h : ¬ idx < N) (fuel : Nat) (nodes : List Ptr) :
    buildLoop N J fuel idx nodes = some (idx, nodes) := by
  cases fuel <;> simp [buildLoop, h]

theorem cycleLen_bounds {N J : Nat} (hN : 1 ≤ N) (hJ : 1 ≤ J) :
    (cycleLen N J - 1) * J < N ∧ N ≤ cycleLen N J * J := by
  have hpos := cycleLen_pos hN hJ
  constructor
  · exact (lt_cycleLen_iff hJ _).mp (by omega)
  · by_contra h
    have hlt : cycleLen N J * J < N := by omega
    have := (lt_cycleLen_iff hJ (cycleLen N J)).mpr hlt
    omega

theorem cycleLen_eq_of_dvd {N J : Nat} (hN : 1 ≤ N) (hJ : 1 ≤ J) (hd : J ∣ N) :
    cycleLen N J = N / J := by
  obtain ⟨h1, h2⟩ := cycleLen_bounds hN hJ
  have hpos := cycleLen_pos hN hJ
  have hmul : N / J * J = N := Nat.div_mul_cancel hd
  have ha : cycleLen N J - 1 < N / J := by
    apply Nat.lt_of_mul_lt_mul_right (a := J)
    rw [hmul]
    exact h1
  have hb : N / J ≤ cycleLen N J := by
    have : N / J * J ≤ cycleLen N J * J := by rw [hmul]; exact h2
    exact Nat.le_of_mul_le_mul_right this (by omega)
  omega

theorem cycleLen_eq_of_not_dvd {N J : Nat} (hN : 1 ≤ N) (hJ : 1 ≤ J) (hd : ¬ J ∣ N) :
    cycleLen N J = N / J + 1 := by
  obtain ⟨h1, h2⟩ := cycleLen_bounds hN hJ
  have hpos := cycleLen_pos hN hJ
  have hle : N / J * J ≤ N := Nat.div_mul_le_self N J
  have hne : N / J * J ≠ N := fun h => hd (Dvd.intro_left _ h)
  have hlt : N / J < cycleLen N J := (lt_cycleLen_iff hJ _).mpr (by omega)
  have hge : cycleLen N J - 1 ≤ N / J := by
    rw [Nat.le_div_iff_mul_le (by omega)]
    omega
  omega

/-- Where the warmup loop ends: index 0 when `J` divides `N` or exceeds it,
the last cycle node otherwise. -/
theorem posAfter_warmup {N J : Nat} (hN : 1 ≤ N) (hJ : 1 ≤ J) :
    posAfter N J (N / J) = if J ∣ N ∨ N < J then 0 else N / J * J := by
  unfold posAfter
  by_cases hd : J ∣ N
  · rw [if_pos (Or.inl hd), cycleLen_eq_of_dvd hN hJ hd, Nat.mod_self, Nat.zero_mul]
  · rw [cycleLen_eq_of_not_dvd hN hJ hd, Nat.mod_eq_of_lt (Nat.lt_succ_self _)]
    by_cases hlt : N < J
    · rw [if_pos (Or.inr hlt), Nat.div_eq_of_lt hlt, Nat.zero_mul]
    · rw [if_neg (by tauto)]

/-! ## Cycle closure, order of visit, termination -/

/-- C1 (cycle closure).  For `N ≥ 1`, `J ≥ 1` and any earlier contents of the
block, `construct` returns; at every step count `k` the traversal from index 0
stands on a node inside the block whose link is a node of the block (never
`NULL`, so the next read is no fault); and for every `k` there is a later step
count `k1 ≥ k` at which the traversal stands on index 0. -/
theorem cycle_closure (N J : Nat) (hN : 1 ≤ N) (hJ : 1 ≤ J) (nodes : List Ptr)
    (hlen : nodes.length = N) :
    ∃ nodes1, construct N J nodes = some nodes1 ∧
      (∀ k, ∃ i q, follow nodes1 k (Ptr.node 0) = some (Ptr.node i) ∧ i < N ∧
        nodes1[i]? = some (Ptr.node q) ∧ q < N) ∧
      (∀ k, ∃ k1, k ≤ k1 ∧ follow nodes1 k1 (Ptr.node 0) = some (Ptr.node 0)) := by
  obtain ⟨nodes1, h1, _, h3⟩ := construct_spec hN hJ nodes hlen
  have hpos := cycleLen_pos hN hJ
  refine ⟨nodes1, h1, ?_, ?_⟩
  · intro k
    have hc : k % cycleLen N J < cycleLen N J := Nat.mod_lt _ hpos
    have hd := deref_cycle hJ h3 hc
    refine ⟨posAfter N J k, ((k % cycleLen N J + 1) % cycleLen N J) * J,
      follow_construct hN hJ hlen h1 k, (lt_cycleLen_iff hJ _).mp hc, hd,
      (lt_cycleLen_iff hJ _).mp (Nat.mod_lt _ hpos)⟩
  · intro k
    refine ⟨k * cycleLen N J, Nat.le_mul_of_pos_right k hpos, ?_⟩
    rw [follow_construct hN hJ hlen h1]
    simp [posAfter]

theorem cycle_closure_witness :
    ∃ nodes1, construct 3 2 [Ptr.node 1, Ptr.node 2, Ptr.node 0] = some nodes1 ∧
      (∀ k, ∃ i q, follow nodes1 k (Ptr.node 0) = some (Ptr.node i) ∧ i < 3 ∧
        nodes1[i]? = some (Ptr.node q) ∧ q < 3) ∧
      (∀ k, ∃ k1, k ≤ k1 ∧ follow nodes1 k1 (Ptr.node 0) = some (Ptr.node 0)) :=
  cycle_closure 3 2 (by decide) (by decide) [Ptr.node 1, Ptr.node 2, Ptr.node 0] (by decide)

/-- C4 (order of visit).  For `N ≥ 1`, `J ≥ 1` and any earlier contents of the
block, after `construct` the traversal from index 0 stands on index `k * J`
after `k` steps as long as `k * J < N`, so it visits `0, J, 2J, ...` in
ascending order; every multiple of `J` below `N` is visited in this way; and
the step after the last of them (step number `cycleLen N J`, the least `m`
with `N ≤ m * J`) is back on index 0.  For working-set size 65536 and stride 8
the block has 8192 nodes, the jump length is 1, and the traversal visits
`0, 1, ..., 8191` and then `0`. -/
theorem visit_order (N J : Nat) (hN : 1 ≤ N) (hJ : 1 ≤ J) (nodes : List Ptr)
    (hlen : nodes.length = N) :
    ∃ nodes1, construct N J nodes = some nodes1 ∧
      (∀ k, k * J < N → follow nodes1 k (Ptr.node 0) = some (Ptr.node (k * J))) ∧
      (∀ i, i < N → J ∣ i →
        ∃ k, k * J = i ∧ k < cycleLen N J ∧ follow nodes1 k (Ptr.node 0) = some (Ptr.node i)) ∧
      follow nodes1 (cycleLen N J) (Ptr.node 0) = some (Ptr.node 0) ∧
      ((cycleLen N J - 1) * J < N ∧ N ≤ cycleLen N J * J) ∧
      (N = numNodesOf 65536 → J = jumpLengthOf 8 →
        N = 8192 ∧ J = 1 ∧
        (∀ k, k < 8192 → follow nodes1 k (Ptr.node 0) = some (Ptr.node k)) ∧
        follow nodes1 8192 (Ptr.node 0) = some (Ptr.node 0)) := by
  obtain ⟨nodes1, h1, _, _⟩ := construct_spec hN hJ nodes hlen
  have hf := follow_construct hN hJ hlen h1
  have hvisit : ∀ k, k * J < N → follow nodes1 k (Ptr.node 0) = some (Ptr.node (k * J)) := by
    intro k hk
    rw [hf k, posAfter, Nat.mod_eq_of_lt ((lt_cycleLen_iff hJ k).mpr hk)]
  have hback : follow nodes1 (cycleLen N J) (Ptr.node 0) = some (Ptr.node 0) := by
    rw [hf, posAfter, Nat.mod_self, Nat.zero_mul]
  refine ⟨nodes1, h1, hvisit, ?_, hback, cycleLen_bounds hN hJ, ?_⟩
  · intro i hi hd
    obtain ⟨k, rfl⟩ := hd
    have hk : k * J < N := by rw [Nat.mul_comm]; exact hi
    exact ⟨k, Nat.mul_comm k J, (lt_cycleLen_iff hJ k).mpr hk, by
      rw [hvisit k hk, Nat.mul_comm]⟩
  · intro hNeq hJeq
    have hN8 : N = 8192 := by rw [hNeq]; decide
    have hJ1 : J = 1 := by rw [hJeq]; decide
    subst hN8 hJ1
    refine ⟨rfl, rfl, ?_, ?_⟩
    · intro k hk
      have := hvisit k (by omega)
      simpa using this
    · have hcl : cycleLen 8192 1 = 8192 := by decide
      rw [hcl] at hback
      exact hback

theorem visit_order_witness :
    numNodesOf 65536 = 8192 ∧ jumpLengthOf 8 = 1 ∧
    ∃ nodes1, construct 8192 1 (initNodes 8192) = some nodes1 ∧
      (∀ k, k < 8192 → follow nodes1 k (Ptr.node 0) = some (Ptr.node k)) ∧
      follow nodes1 8192 (Ptr.node 0) = some (Ptr.node 0) := by
  obtain ⟨nodes1, h1, _, _, _, _, h6⟩ :=
    visit_order 8192 1 (by decide) (by decide) (initNodes 8192) (initNodes_length 8192)
  exact ⟨by decide, by decide, nodes1, h1, (h6 (by decide) (by decide)).2.2⟩

/-- C6 (degenerate case).  For `N ≥ 1`, `J ≥ 1` with `N = 1` or `J ≥ N`, and
any earlier contents of the block, the construction loop runs exactly one
iteration (it does not return without fuel, and with one unit of fuel it
returns after writing node 0 and moving `idx` to `J`); after `construct`
node 0 links to node 0, every other node is unchanged, and the traversal from
index 0 stays on index 0. -/
theorem degenerate_self_loop (N J : Nat) (hN : 1 ≤ N) (hJ : 1 ≤ J) (hdeg : N = 1 ∨ N ≤ J)
    (nodes : List Ptr) (hlen : nodes.length = N) :
    buildLoop N J 0 0 nodes = none ∧
    buildLoop N J 1 0 nodes = some (J, nodes.set 0 (Ptr.node (J % N))) ∧
    ∃ nodes1, construct N J nodes = some nodes1 ∧
      nodes1 = nodes.set 0 (Ptr.node 0) ∧
      deref nodes1 (Ptr.node 0) = some (Ptr.node 0) ∧
      ∀ k, follow nodes1 k (Ptr.node 0) = some (Ptr.node 0) := by
  have hNJ : N ≤ J := by omega
  have h0 : 0 < N := by omega
  have hst := store_eq_some nodes 0 (Ptr.node (J % N)) (by omega)
  have hloop : buildLoop N J 1 0 nodes = some (J, nodes.set 0 (Ptr.node (J % N))) := by
    simp [buildLoop, h0, hst, Nat.not_lt.mpr hNJ]
  obtain ⟨nodes1, h1, _, _⟩ := construct_spec hN hJ nodes hlen
  have hf := follow_construct hN hJ hlen h1
  have hcl : cycleLen N J = 1 := by
    have hpos := cycleLen_pos hN hJ
    have : ¬ 1 < cycleLen N J := fun h => by
      have := (lt_cycleLen_iff hJ 1).mp h
      omega
    omega
  have hfuel : buildLoop N J N 0 nodes = some (J, nodes.set 0 (Ptr.node (J % N))) := by
    obtain ⟨n, rfl⟩ : ∃ n, N = n + 1 := ⟨N - 1, by omega⟩
    simp only [buildLoop, h0, if_true, hst, Nat.zero_add]
    exact buildLoop_done (Nat.not_lt.mpr hNJ) n _
  have hst2 := store_eq_some (nodes.set 0 (Ptr.node (J % N))) 0 (Ptr.node 0)
    (by simp [hlen]; omega)
  have hc : construct N J nodes = some (nodes.set 0 (Ptr.node 0)) := by
    simp [construct, hfuel, hst2]
  rw [hc] at h1
  cases h1
  refine ⟨by simp [buildLoop, h0], hloop, _, hc, rfl, ?_, ?_⟩
  · simp only [deref]
    rw [List.getElem?_set_self (by omega)]
  · intro k
    rw [hf k, posAfter, hcl, Nat.mod_one, Nat.zero_mul]

theorem degenerate_self_loop_witness :
    buildLoop 3 5 0 0 [Ptr.node 1, Ptr.node 2, Ptr.null] = none ∧
    buildLoop 3 5 1 0 [Ptr.node 1, Ptr.node 2, Ptr.null] =
      some (5, [Ptr.node 1, Ptr.node 2, Ptr.null].set 0 (Ptr.node (5 % 3))) ∧
    ∃ nodes1, construct 3 5 [Ptr.node 1, Ptr.node 2, Ptr.null] = some nodes1 ∧
      nodes1 = [Ptr.node 1, Ptr.node 2, Ptr.null].set 0 (Ptr.node 0) ∧
      deref nodes1 (Ptr.node 0) = some (Ptr.node 0) ∧
      ∀ k, follow nodes1 k (Ptr.node 0) = some (Ptr.node 0) :=
  degenerate_self_loop 3 5 (by decide) (by decide) (Or.inr (by decide))
    [Ptr.node 1, Ptr.node 2, Ptr.null] (by decide)

/-- C10 (independence from stale links).  For `N ≥ 1`, `J ≥ 1` and any earlier
contents `nodes` of the block, the traversal from index 0 after `construct` is,
step for step, the traversal obtained when `construct` starts from the
all-`NULL` block; every node the traversal stands on carries the link this
construction wrote (the same as in the fresh block), so no earlier link is
read.  Hence one cell measured on a used block yields the pointer values it
yields on a fresh block, and the stride loop run over any list of strides on
one block yields, cell by cell, the measurements of fresh blocks. -/
theorem stale_links_independent (N J : Nat) (hN : 1 ≤ N) (hJ : 1 ≤ J) (nodes : List Ptr)
    (hlen : nodes.length = N) :
    (∃ nodes1 fresh1, construct N J nodes = some nodes1 ∧
      construct N J (initNodes N) = some fresh1 ∧
      (∀ k, follow nodes1 k (Ptr.node 0) = follow fresh1 k (Ptr.node 0)) ∧
      (∀ k i, follow nodes1 k (Ptr.node 0) = some (Ptr.node i) → nodes1[i]? = fresh1[i]?)) ∧
    (∀ stride, ∃ nodes1 m, measureStride N nodes stride = some (nodes1, m) ∧
      Option.map Prod.snd (measureStride N (initNodes N) stride) = some m) ∧
    (∀ strides, ∃ nodes2 ms, strideLoop N strides nodes = some (nodes2, ms) ∧
      ms.map some =
        strides.map (fun s => Option.map Prod.snd (measureStride N (initNodes N) s))) := by
  obtain ⟨nodes1, h1, _, h3⟩ := construct_spec hN hJ nodes hlen
  obtain ⟨fresh1, g1, _, g3⟩ := construct_spec hN hJ (initNodes N) (initNodes_length N)
  have hfresh : ∀ s, Option.map Prod.snd (measureStride N (initNodes N) s)
      = some (cellTrace N s) := by
    intro s
    obtain ⟨_, _, hm⟩ := measureStride_spec hN (initNodes N) (initNodes_length N) s
    rw [hm]
    rfl
  refine ⟨⟨nodes1, fresh1, h1, g1, ?_, ?_⟩, ?_, ?_⟩
  · intro k
    rw [follow_construct hN hJ hlen h1 k, follow_construct hN hJ (initNodes_length N) g1 k]
  · intro k i hk
    rw [follow_construct hN hJ hlen h1 k] at hk
    have hi : i = posAfter N J k := by
      injection hk with hk
      injection hk with hk
      exact hk.symm
    have hc : k % cycleLen N J < cycleLen N J := Nat.mod_lt _ (cycleLen_pos hN hJ)
    have hcond : i < N ∧ J ∣ i := by
      rw [hi]
      exact ⟨(lt_cycleLen_iff hJ _).mp hc, Dvd.intro_left _ rfl⟩
    rw [h3 i, g3 i, if_pos hcond, if_pos hcond]
  · intro stride
    obtain ⟨n1, _, hm⟩ := measureStride_spec hN nodes hlen stride
    exact ⟨n1, cellTrace N stride, hm, hfresh stride⟩
  · intro strides
    obtain ⟨nodes2, hs, _, _⟩ := strideLoop_spec hN strides nodes hlen
    refine ⟨nodes2, strides.map (cellTrace N), hs, ?_⟩
    rw [List.map_map]
    apply List.map_congr_left
    intro s _
    exact (hfresh s).symm

theorem stale_links_independent_witness :
    (∃ nodes1 fresh1, construct 3 2 [Ptr.node 1, Ptr.node 2, Ptr.node 0] = some nodes1 ∧
      construct 3 2 (initNodes 3) = some fresh1 ∧
      (∀ k, follow nodes1 k (Ptr.node 0) = follow fresh1 k (Ptr.node 0)) ∧
      (∀ k i, follow nodes1 k (Ptr.node 0) = some (Ptr.node i) → nodes1[i]? = fresh1[i]?)) :=
  (stale_links_independent 3 2 (by decide) (by decide) [Ptr.node 1, Ptr.node 2, Ptr.node 0]
    (by decide)).1

/-! ## The stepping rule and the warmup -/

theorem some_node_inj {i j : Nat} (h : some (Ptr.node i) = some (Ptr.node j)) : i = j := by
  injection h with h
  injection h

/-- The indices the traversal stands on are the multiples of `J` below `N`. -/
theorem posAfter_lt_dvd {N J : Nat} (hN : 1 ≤ N) (hJ : 1 ≤ J) (k : Nat) :
    posAfter N J k < N ∧ J ∣ posAfter N J k :=
  ⟨(lt_cycleLen_iff hJ _).mp (Nat.mod_lt _ (cycleLen_pos hN hJ)), Dvd.intro_left _ rfl⟩

/-- C2, counterexample.  Working-set size 49152 with stride 32768 gives 6144
nodes and jump length 4096.  After `construct` on the fresh block the traversal
stands on index 4096 after one step, and the successor of node 4096 is node 0,
while `(4096 + 4096) mod 6144 = 2048`; index 2048, reached by adding 4096
twice modulo 6144, is never stood on. -/
theorem stepping_rule_counterexample :
    numNodesOf 49152 = 6144 ∧ jumpLengthOf 32768 = 4096 ∧
    ∃ nodes1, construct 6144 4096 (initNodes 6144) = some nodes1 ∧
      follow nodes1 1 (Ptr.node 0) = some (Ptr.node 4096) ∧
      deref nodes1 (Ptr.node 4096) = some (Ptr.node 0) ∧
      deref nodes1 (Ptr.node 4096) ≠ some (Ptr.node ((4096 + 4096) % 6144)) ∧
      (0 + 4096 + 4096) % 6144 = 2048 ∧
      ∀ k, follow nodes1 k (Ptr.node 0) ≠ some (Ptr.node 2048) := by
  obtain ⟨nodes1, h1, _, h3⟩ :=
    construct_spec (N := 6144) (J := 4096) (by decide) (by decide) (initNodes 6144)
      (initNodes_length 6144)
  have hf := follow_construct (N := 6144) (J := 4096) (by decide) (by decide)
    (initNodes_length 6144) h1
  have hd : deref nodes1 (Ptr.node 4096) = some (Ptr.node 0) := by
    simp only [deref]
    rw [h3 4096]
    decide
  refine ⟨by decide, by decide, nodes1, h1, ?_, hd, ?_, by decide, ?_⟩
  · rw [hf 1]
    decide
  · rw [hd]
    decide
  · intro k hk
    rw [hf k] at hk
    have h2048 := some_node_inj hk
    have hcl : cycleLen 6144 4096 = 2 := by decide
    unfold posAfter at h2048
    rw [hcl] at h2048
    omega

/-- C2, amended.  For `N ≥ 1`, `J ≥ 1` and any earlier contents of the block,
every node the traversal from index 0 stands on has an index `i < N` that is a
multiple of `J`; its successor is node `i + J = (i + J) mod N` when
`i + J < N` and node 0 when `i + J ≥ N` (the last cycle node), which is
`(i + J) mod N` whenever `J` divides `N`; and the traversal stands on exactly
the multiples of `J` below `N`. -/
theorem stepping_rule (N J : Nat) (hN : 1 ≤ N) (hJ : 1 ≤ J) (nodes : List Ptr)
    (hlen : nodes.length = N) :
    ∃ nodes1, construct N J nodes = some nodes1 ∧
      (∀ k i, follow nodes1 k (Ptr.node 0) = some (Ptr.node i) →
        i < N ∧ J ∣ i ∧
        (i + J < N → deref nodes1 (Ptr.node i) = some (Ptr.node ((i + J) % N))) ∧
        (N ≤ i + J → deref nodes1 (Ptr.node i) = some (Ptr.node 0)) ∧
        (J ∣ N → deref nodes1 (Ptr.node i) = some (Ptr.node ((i + J) % N)))) ∧
      (∀ i, (∃ k, follow nodes1 k (Ptr.node 0) = some (Ptr.node i)) ↔ (i < N ∧ J ∣ i)) := by
  obtain ⟨nodes1, h1, _, h3⟩ := construct_spec hN hJ nodes hlen
  have hf := follow_construct hN hJ hlen h1
  refine ⟨nodes1, h1, ?_, ?_⟩
  · intro k i hk
    rw [hf k] at hk
    have hi : posAfter N J k = i := some_node_inj hk
    have hcond : i < N ∧ J ∣ i := hi ▸ posAfter_lt_dvd hN hJ k
    have hd : deref nodes1 (Ptr.node i) = some (Ptr.node (if i + J < N then i + J else 0)) := by
      simp only [deref]
      rw [h3 i, if_pos hcond]
    refine ⟨hcond.1, hcond.2, ?_, ?_, ?_⟩
    · intro hlt
      rw [hd, if_pos hlt, Nat.mod_eq_of_lt hlt]
    · intro hge
      rw [hd, if_neg (by omega)]
    · intro hdvd
      rw [hd]
      by_cases hlt : i + J < N
      · rw [if_pos hlt, Nat.mod_eq_of_lt hlt]
      · rw [if_neg hlt]
        obtain ⟨a, ha⟩ := hcond.2
        obtain ⟨b, hb⟩ := hdvd
        have e1 : J * a < J * b := by omega
        have e2 : J * b < J * (a + 1 + 1) := by rw [Nat.mul_succ, Nat.mul_succ]; omega
        have e3 := Nat.lt_of_mul_lt_mul_left e1
        have e4 := Nat.lt_of_mul_lt_mul_left e2
        have hba : b = a + 1 := by omega
        have hsum : i + J = N := by rw [ha, hb, hba, Nat.mul_succ]
        rw [hsum, Nat.mod_self]
  · intro i
    constructor
    · rintro ⟨k, hk⟩
      rw [hf k] at hk
      have hi : posAfter N J k = i := some_node_inj hk
      exact hi ▸ posAfter_lt_dvd hN hJ k
    · rintro ⟨hi, c, rfl⟩
      have hc : c < cycleLen N J := (lt_cycleLen_iff hJ c).mpr (by rw [Nat.mul_comm]; exact hi)
      exact ⟨c, by rw [hf c, posAfter, Nat.mod_eq_of_lt hc, Nat.mul_comm]⟩

theorem stepping_rule_witness :
    ∃ nodes1, construct 6144 4096 (initNodes 6144) = some nodes1 ∧
      (∀ k i, follow nodes1 k (Ptr.node 0) = some (Ptr.node i) →
        i < 6144 ∧ 4096 ∣ i ∧
        (i + 4096 < 6144 → deref nodes1 (Ptr.node i) = some (Ptr.node ((i + 4096) % 6144))) ∧
        (6144 ≤ i + 4096 → deref nodes1 (Ptr.node i) = some (Ptr.node 0)) ∧
        (4096 ∣ 6144 → deref nodes1 (Ptr.node i) = some (Ptr.node ((i + 4096) % 6144)))) ∧
      (∀ i, (∃ k, follow nodes1 k (Ptr.node 0) = some (Ptr.node i)) ↔ (i < 6144 ∧ 4096 ∣ i)) :=
  stepping_rule 6144 4096 (by decide) (by decide) (initNodes 6144) (initNodes_length 6144)

/-- C3, counterexample.  Working-set size 49152 with stride 32768 gives 6144
nodes and jump length 4096, so the warmup follows `6144 / 4096 = 1` link from
index 0; after `construct` on the fresh block it ends on index 4096, not on
index 0. -/
theorem warmup_return_counterexample :
    numNodesOf 49152 = 6144 ∧ jumpLengthOf 32768 = 4096 ∧ 6144 / 4096 = 1 ∧
    ∃ nodes1, construct 6144 4096 (initNodes 6144) = some nodes1 ∧
      follow nodes1 (6144 / 4096) (Ptr.node 0) = some (Ptr.node 4096) ∧
      follow nodes1 (6144 / 4096) (Ptr.node 0) ≠ some (Ptr.node 0) := by
  obtain ⟨nodes1, h1, _, _⟩ :=
    construct_spec (N := 6144) (J := 4096) (by decide) (by decide) (initNodes 6144)
      (initNodes_length 6144)
  have hf := follow_construct (N := 6144) (J := 4096) (by decide) (by decide)
    (initNodes_length 6144) h1 (6144 / 4096)
  have hp : posAfter 6144 4096 (6144 / 4096) = 4096 := by decide
  rw [hp] at hf
  refine ⟨by decide, by decide, by decide, nodes1, h1, hf, ?_⟩
  rw [hf]
  decide

/-- C3, amended.  For `N ≥ 1`, `J ≥ 1` and any earlier contents of the block,
following `N / J` links from index 0 after `construct` ends on index 0 when
`J` divides `N` or `J > N`; otherwise (`J < N` not dividing `N`) it ends on
the last cycle node, index `(N / J) * J`, which is not index 0.  For
working-set size 65536 and stride 8 the warmup follows 8192 links and ends on
index 0. -/
theorem warmup_return (N J : Nat) (hN : 1 ≤ N) (hJ : 1 ≤ J) (nodes : List Ptr)
    (hlen : nodes.length = N) :
    ∃ nodes1, construct N J nodes = some nodes1 ∧
      (J ∣ N ∨ N < J → follow nodes1 (N / J) (Ptr.node 0) = some (Ptr.node 0)) ∧
      (¬ J ∣ N → J < N →
        follow nodes1 (N / J) (Ptr.node 0) = some (Ptr.node (N / J * J)) ∧ 0 < N / J * J) ∧
      (N = numNodesOf 65536 → J = jumpLengthOf 8 →
        N / J = 8192 ∧ follow nodes1 8192 (Ptr.node 0) = some (Ptr.node 0)) := by
  obtain ⟨nodes1, h1, _, _⟩ := construct_spec hN hJ nodes hlen
  have hf := follow_construct hN hJ hlen h1 (N / J)
  rw [posAfter_warmup hN hJ] at hf
  have hzero : J ∣ N ∨ N < J → follow nodes1 (N / J) (Ptr.node 0) = some (Ptr.node 0) := by
    intro h
    rw [hf, if_pos h]
  refine ⟨nodes1, h1, hzero, ?_, ?_⟩
  · intro hd hlt
    rw [hf, if_neg (by omega)]
    refine ⟨rfl, ?_⟩
    have : 0 < N / J := Nat.div_pos (by omega) (by omega)
    exact Nat.mul_pos this (by omega)
  · intro hNeq hJeq
    have hN8 : N = 8192 := by rw [hNeq]; decide
    have hJ1 : J = 1 := by rw [hJeq]; decide
    subst hN8 hJ1
    have := hzero (Or.inl (one_dvd _))
    exact ⟨by decide, by simpa using this⟩

theorem warmup_return_witness :
    numNodesOf 65536 = 8192 ∧ jumpLengthOf 8 = 1 ∧
    ∃ nodes1, construct 8192 1 (initNodes 8192) = some nodes1 ∧
      8192 / 1 = 8192 ∧ follow nodes1 8192 (Ptr.node 0) = some (Ptr.node 0) := by
  obtain ⟨nodes1, h1, _, _, h4⟩ :=
    warmup_return 8192 1 (by decide) (by decide) (initNodes 8192) (initNodes_length 8192)
  exact ⟨by decide, by decide, nodes1, h1, h4 (by decide) (by decide)⟩

/-! ## What construction leaves in the block -/

theorem initNodes_get {N i : Nat} (hi : i < N) : (initNodes N)[i]? = some Ptr.null := by
  simp [initNodes, hi]

/-- A block in which exactly the entries 0 and `a + 1` are links has `a + b`
entries equal to `NULL`, where `a + b + 2` is its length. -/
theorem count_null_of_two (l : List Ptr) (a b x y : Nat) (hlen : l.length = a + b + 2)
    (h0 : l[0]? = some (Ptr.node x)) (h1 : l[a + 1]? = some (Ptr.node y))
    (hnull : ∀ i, i < a + b + 2 → i ≠ 0 → i ≠ a + 1 → l[i]? = some Ptr.null) :
    l.count Ptr.null = a + b := by
  have hlist : l = Ptr.node x ::
      (List.replicate a Ptr.null ++ Ptr.node y :: List.replicate b Ptr.null) := by
    apply List.ext_getElem?
    intro i
    by_cases hi0 : i = 0
    · subst hi0
      rw [h0]
      simp
    · obtain ⟨j, rfl⟩ : ∃ j, i = j + 1 := ⟨i - 1, by omega⟩
      rw [List.getElem?_cons_succ]
      by_cases hj1 : j < a
      · rw [List.getElem?_append_left (by simp; omega), hnull (j + 1) (by omega) (by omega)
          (by omega)]
        simp [hj1]
      · rw [List.getElem?_append_right (by simp; omega)]
        simp only [List.length_replicate]
        by_cases hj2 : j = a
        · subst hj2
          rw [h1]
          simp
        · obtain ⟨m, rfl⟩ : ∃ m, j = a + (m + 1) := ⟨j - a - 1, by omega⟩
          have e : a + (m + 1) - a = m + 1 := by omega
          rw [e, List.getElem?_cons_succ]
          by_cases hm : m < b
          · rw [hnull _ (by omega) (by omega) (by omega)]
            simp [hm]
          · rw [List.getElem?_eq_none (by omega), List.getElem?_eq_none (by simp; omega)]
  rw [hlist]
  simp [List.count_cons, List.count_append, List.count_replicate]

/-- C5, counterexample.  In the sweep the block of working-set size 49152
(6144 nodes) is filled with `NULL` once and then used by all 16 strides.  When
the construction of the second stride begins, node 0 already links to node 1;
the block on which the last stride (32768, jump length 4096) is measured
is the one the first 15 strides leave, in which node 1 links to node 2 when
construction begins, and node 1 still links to node 2 after that
construction, although index 1 is neither 0 nor 4096. -/
theorem fresh_block_counterexample :
    numNodesOf 49152 = 6144 ∧ strideSizes = strideSizes.take 15 ++ [32768] ∧
    jumpLengthOf 32768 = 4096 ∧
    (∃ blk ms, strideLoop 6144 (strideSizes.take 1) (initNodes 6144) = some (blk, ms) ∧
      blk[0]? = some (Ptr.node 1)) ∧
    (∃ blk ms, strideLoop 6144 (strideSizes.take 15) (initNodes 6144) = some (blk, ms) ∧
      strideLoop 6144 strideSizes (initNodes 6144) =
        (match measureStride 6144 blk 32768 with
         | none => none
         | some (blk1, m) => some (blk1, ms ++ [m])) ∧
      blk[1]? = some (Ptr.node 2)) ∧
    (∃ blk ms, strideLoop 6144 strideSizes (initNodes 6144) = some (blk, ms) ∧
      blk[1]? = some (Ptr.node 2)) := by
  have hN : 1 ≤ 6144 := by decide
  obtain ⟨b1, s1, _, g1⟩ := strideLoop_spec hN (strideSizes.take 1) _ (initNodes_length 6144)
  obtain ⟨b2, s2, _, g2⟩ := strideLoop_spec hN (strideSizes.take 15) _ (initNodes_length 6144)
  obtain ⟨b3, s3, _, g3⟩ := strideLoop_spec hN strideSizes _ (initNodes_length 6144)
  have i0 : (initNodes 6144)[0]? = some Ptr.null := initNodes_get (by decide)
  have i1 : (initNodes 6144)[1]? = some Ptr.null := initNodes_get (by decide)
  have hsplit : strideSizes = strideSizes.take 15 ++ [32768] := by decide
  have hcat := strideLoop_concat 6144 32768 (strideSizes.take 15) (initNodes 6144)
  rw [← hsplit, s2] at hcat
  refine ⟨by decide, hsplit, by decide, ⟨b1, _, s1, ?_⟩, ⟨b2, _, s2, hcat, ?_⟩,
    ⟨b3, _, s3, ?_⟩⟩
  · rw [g1 0, i0]
    decide
  · rw [g2 1, i1]
    decide
  · rw [g3 1, i1]
    decide

/-- C5, amended.  The block of a working-set size is filled with `NULL` once,
before its first stride (`measureWorkingSet` runs the stride loop on
`initNodes`), so every link is `NULL` when the construction of the first
stride begins.  For `N ≥ 1`, `J ≥ 1` and any earlier contents of the block,
`construct` gives every node at a multiple of `J` below `N` a link into the
block and leaves every other node as it was; started from the all-`NULL`
block, exactly the multiples of `J` hold a link afterwards and the rest are
still `NULL`.  For 6144 nodes and jump length 4096 (working-set size 49152,
stride 32768) on the all-`NULL` block, node 0 links to 4096, node 4096 to 0,
and the other 6142 nodes are `NULL`. -/
theorem construction_frame (N J : Nat) (hN : 1 ≤ N) (hJ : 1 ≤ J) (nodes : List Ptr)
    (hlen : nodes.length = N) :
    (∀ i, i < N → (initNodes N)[i]? = some Ptr.null) ∧
    (∀ strides w, measureWorkingSet strides w =
      Option.map Prod.snd (strideLoop (numNodesOf w) strides (initNodes (numNodesOf w)))) ∧
    (∃ nodes1, construct N J nodes = some nodes1 ∧ nodes1.length = N ∧
      ∀ i, i < N →
        (J ∣ i → ∃ q, q < N ∧ nodes1[i]? = some (Ptr.node q)) ∧
        (¬ J ∣ i → nodes1[i]? = nodes[i]?)) ∧
    (∃ fresh1, construct N J (initNodes N) = some fresh1 ∧
      ∀ i, i < N → (fresh1[i]? = some Ptr.null ↔ ¬ J ∣ i)) ∧
    (N = numNodesOf 49152 → J = jumpLengthOf 32768 →
      N = 6144 ∧ J = 4096 ∧
      ∃ fresh1, construct N J (initNodes N) = some fresh1 ∧ fresh1.length = 6144 ∧
        fresh1[0]? = some (Ptr.node 4096) ∧ fresh1[4096]? = some (Ptr.node 0) ∧
        (∀ i, i < 6144 → i ≠ 0 → i ≠ 4096 → fresh1[i]? = some Ptr.null) ∧
        fresh1.count Ptr.null = 6142) := by
  obtain ⟨nodes1, h1, h2, h3⟩ := construct_spec hN hJ nodes hlen
  obtain ⟨fresh1, g1, g2, g3⟩ := construct_spec hN hJ (initNodes N) (initNodes_length N)
  refine ⟨fun i hi => initNodes_get hi, ?_, ⟨nodes1, h1, h2, ?_⟩, ⟨fresh1, g1, ?_⟩, ?_⟩
  · intro strides w
    unfold measureWorkingSet
    cases strideLoop (numNodesOf w) strides (initNodes (numNodesOf w)) <;> rfl
  · intro i hi
    constructor
    · intro hd
      rw [h3 i, if_pos ⟨hi, hd⟩]
      refine ⟨_, ?_, rfl⟩
      split <;> omega
    · intro hd
      rw [h3 i, if_neg (fun h => hd h.2)]
  · intro i hi
    rw [g3 i]
    by_cases hd : J ∣ i
    · rw [if_pos ⟨hi, hd⟩]
      simp [hd]
    · rw [if_neg (fun h => hd h.2), initNodes_get hi]
      simp [hd]
  · intro hNeq hJeq
    have hN8 : N = 6144 := by rw [hNeq]; decide
    have hJ1 : J = 4096 := by rw [hJeq]; decide
    subst hN8 hJ1
    have hdvd : ∀ i, i < 6144 → (4096 ∣ i ↔ i = 0 ∨ i = 4096) := by
      intro i hi
      constructor
      · rintro ⟨c, rfl⟩
        omega
      · rintro (rfl | rfl) <;> decide
    have hnull : ∀ i, i < 6144 → i ≠ 0 → i ≠ 4096 → fresh1[i]? = some Ptr.null := by
      intro i hi h0 h4
      have hnd : ¬ 4096 ∣ i := fun h => by
        rcases (hdvd i hi).mp h with h | h
        · exact h0 h
        · exact h4 h
      rw [g3 i, if_neg (fun h => hnd h.2), initNodes_get hi]
    have hz : fresh1[0]? = some (Ptr.node 4096) := by rw [g3 0]; decide
    have h4 : fresh1[4096]? = some (Ptr.node 0) := by rw [g3 4096]; decide
    refine ⟨rfl, rfl, fresh1, g1, g2, hz, h4, hnull, ?_⟩
    exact count_null_of_two fresh1 4095 2047 4096 0 g2 hz h4 hnull

theorem construction_frame_witness :
    numNodesOf 49152 = 6144 ∧ jumpLengthOf 32768 = 4096 ∧
    ∃ fresh1, construct 6144 4096 (initNodes 6144) = some fresh1 ∧ fresh1.length = 6144 ∧
      fresh1[0]? = some (Ptr.node 4096) ∧ fresh1[4096]? = some (Ptr.node 0) ∧
      (∀ i, i < 6144 → i ≠ 0 → i ≠ 4096 → fresh1[i]? = some Ptr.null) ∧
      fresh1.count Ptr.null = 6142 := by
  obtain ⟨_, _, _, _, h5⟩ :=
    construction_frame 6144 4096 (by decide) (by decide) (initNodes 6144) (initNodes_length 6144)
  exact ⟨by decide, by decide, (h5 (by decide) (by decide)).2.2⟩

/-! ## The timed pass and the result sink -/

/-- C7, counterexample.  The cell of working-set size 49152 (row 0) and stride
32768 (column 15) of the sweep: the warmup ends on index 4096, and the timed
pass starts on index 0. -/
theorem timed_start_counterexample :
    workingSetSizes[0]? = some 49152 ∧ strideSizes[15]? = some 32768 ∧
    ∃ (rows : List (List Measurement)) (row : List Measurement) (m : Measurement),
      sweep = some rows ∧ rows[0]? = some row ∧ row[15]? = some m ∧
      m.warmupEnd = Ptr.node 4096 ∧ m.timedStart = Ptr.node 0 ∧
      m.warmupEnd ≠ m.timedStart := by
  refine ⟨by decide, by decide, _, strideSizes.map (cellTrace (numNodesOf 49152)),
    cellTrace (numNodesOf 49152) 32768, sweep_spec, rfl, rfl, ?_, rfl, ?_⟩
  · decide
  · decide

theorem warmupEnd_cells :
    ∀ w ∈ workingSetSizes, ∀ s ∈ strideSizes,
      ((cellTrace (numNodesOf w) s).warmupEnd = (cellTrace (numNodesOf w) s).timedStart ↔
        ¬ (w = 49152 ∧ s = 32768)) := by
  decide

/-- C7, amended.  `ITERATIONS` is 50,000,000, the sweep returns, and in every
cell (row `a` for working-set size `w`, column `b` for stride `s`) the timed
pass starts on index 0, the first node of the block, and its final pointer is
the result of following exactly `ITERATIONS` links from there in the block
`construct` left, whatever the block held before the cell.  Index 0 is also
where the warmup ended in every cell except the one of working-set size 49152
and stride 32768. -/
theorem timed_pass_start :
    ITERATIONS = 50000000 ∧
    ∃ rows, sweep = some rows ∧
      ∀ (a b w s : Nat), workingSetSizes[a]? = some w → strideSizes[b]? = some s →
        ∃ (row : List Measurement) (m : Measurement), rows[a]? = some row ∧ row[b]? = some m ∧
          m.timedStart = Ptr.node 0 ∧
          (∀ blk : List Ptr, blk.length = numNodesOf w →
            ∃ blk1, measureStride (numNodesOf w) blk s = some (blk1, m) ∧
              follow blk1 (numNodesOf w / jumpLengthOf s) (Ptr.node 0) = some m.warmupEnd ∧
              follow blk1 ITERATIONS m.timedStart = some m.timedEnd) ∧
          (m.warmupEnd = m.timedStart ↔ ¬ (w = 49152 ∧ s = 32768)) := by
  refine ⟨rfl, _, sweep_spec, ?_⟩
  intro a b w s hw hs
  have hwmem : w ∈ workingSetSizes := List.getElem?_mem hw
  have hsmem : s ∈ strideSizes := List.getElem?_mem hs
  have hN := workingSetSizes_numNodes_pos w hwmem
  have hrow : (workingSetSizes.map (fun w => strideSizes.map (cellTrace (numNodesOf w))))[a]?
      = some (strideSizes.map (cellTrace (numNodesOf w))) := by
    rw [List.getElem?_map, hw]
    rfl
  have hcell : (strideSizes.map (cellTrace (numNodesOf w)))[b]?
      = some (cellTrace (numNodesOf w) s) := by
    rw [List.getElem?_map, hs]
    rfl
  refine ⟨strideSizes.map (cellTrace (numNodesOf w)), cellTrace (numNodesOf w) s, hrow, hcell,
    rfl, ?_, warmupEnd_cells w hwmem s hsmem⟩
  intro blk hlen
  obtain ⟨blk1, h1, h2⟩ := measureStride_spec hN blk hlen s
  have hf := follow_construct hN (jumpLengthOf_pos s) hlen h1
  exact ⟨blk1, h2, hf _, hf _⟩

theorem timed_pass_start_witness :
    ∃ (rows : List (List Measurement)) (row : List Measurement) (m : Measurement),
      sweep = some rows ∧ rows[1]? = some row ∧ row[3]? = some m ∧
      m.timedStart = Ptr.node 0 ∧ m.warmupEnd = m.timedStart := by
  obtain ⟨_, rows, hs, h⟩ := timed_pass_start
  obtain ⟨row, m, h1, h2, h3, _, h5⟩ := h 1 3 65536 8 (by decide) (by decide)
  exact ⟨rows, row, m, hs, h1, h2, h3, h5.mpr (by decide)⟩

/-- With one argument `main` runs the sweep, prints the cell lines, sends the
text to the stream and reports completion with status 0. -/
theorem main_two {Lat : Type} (argv0 path : String) (dest : Dest) (latency : Nat → Nat → Lat) :
    main [argv0, path] dest latency =
      some ⟨0, [], cellLines latency ++ [Line.written path], writeCsv dest (csvText latency)⟩ := by
  have h : main [argv0, path] dest latency = resultSink path dest latency sweep := rfl
  rw [h, sweep_spec]
  rfl

/-- C8, counterexample.  Invoked with one argument naming a destination that
cannot be opened, the run exits with status 0, writes nothing to standard
error and ends its standard output with the line `Written to <path>`: the same
exit status and console text as the run whose destination is writable,
although no text reached the file. -/
theorem unwritable_output_counterexample :
    ∃ o, main ["memlatencytest", "/no/such/dir/out.csv"] Dest.unopenable (fun _ _ => (0 : Nat))
        = some o ∧
      o.exitCode = 0 ∧ o.stderr = [] ∧
      o.stdout.getLast? = some (Line.written "/no/such/dir/out.csv") ∧ o.file = none ∧
      ∃ o2, main ["memlatencytest", "/no/such/dir/out.csv"] Dest.writable (fun _ _ => (0 : Nat))
          = some o2 ∧
        o2.file ≠ none ∧
        o2.exitCode = o.exitCode ∧ o2.stdout = o.stdout ∧ o2.stderr = o.stderr := by
  refine ⟨_, main_two _ _ _ _, rfl, rfl, ?_, rfl, _, main_two _ _ _ _, ?_, rfl, rfl, rfl⟩
  · exact List.getLast?_concat _
  · simp [writeCsv]

/-- C8, amended.  Invoked with one argument, the run never tests the output
stream: whatever the destination does, it exits with status 0, writes nothing
to standard error and ends its standard output with `Written to <path>`; exit
status and console text are the same for every behaviour of the destination,
and the only difference is that the text reaches the file exactly when the
destination is writable. -/
theorem output_failure_not_reported {Lat : Type} (argv0 path : String) (dest : Dest)
    (latency : Nat → Nat → Lat) :
    ∃ o, main [argv0, path] dest latency = some o ∧
      o.exitCode = 0 ∧ o.stderr = [] ∧ o.stdout.getLast? = some (Line.written path) ∧
      (o.file = some (csvText latency) ↔ dest = Dest.writable) ∧
      (o.file = none ↔ dest ≠ Dest.writable) ∧
      ∀ dest2, ∃ o2, main [argv0, path] dest2 latency = some o2 ∧
        o2.exitCode = o.exitCode ∧ o2.stdout = o.stdout ∧ o2.stderr = o.stderr := by
  refine ⟨_, main_two argv0 path dest latency, rfl, rfl, List.getLast?_concat _, ?_, ?_, ?_⟩
  · cases dest <;> simp [writeCsv]
  · cases dest <;> simp [writeCsv]
  · intro dest2
    exact ⟨_, main_two argv0 path dest2 latency, rfl, rfl, rfl⟩

end MemLatency
